import Mathlib

/-!
Shallow embedding of the `nbt-parser` crate (src/lib.rs) and proofs about it.

The crate decodes the NBT binary tag format with the `combine` 3.x parser
combinator library over a buffered byte stream.  The embedding models a parser
as a function from the remaining input (a `List UInt8`) to a parse result that
records, as `combine` does, whether input was consumed.  The semantics of the
`combine` combinators used by the crate are reproduced:

* `byte b` / `any`: consume one byte; at end of input, or when the byte does
  not match, fail *without* consuming (`combine` restores the checkpoint on an
  empty error and reports the expected tokens at the failing position; the
  model additionally records the byte found there).
* sequencing (`then`/`and`/`with`/`skip`/`map`): an empty failure after the
  first part consumed becomes a consumed failure of the whole.
* `choice!`/`or`: a consumed failure aborts; an empty failure tries the next
  alternative, merging the error information.
* `count n p`: parses `p` *from zero up to* `n` times — it stops, succeeding
  with the items collected so far, as soon as `p` fails without consuming
  input; only a consumed failure of `p` fails the whole `count`.
* `many p`: like `count` without the bound.
* `unexpected msg`: always fails without consuming input.

`String::from_utf8(..).unwrap()` panics on invalid UTF-8; a Rust panic unwinds
through every combinator, so the model threads a `panicked` result that every
combinator propagates unchanged and that the entry point surfaces.

The loops of `count`/`many` and the mutual recursion of
`named_tag`/`list_tag`/`compound_tag` are total in Lean via a fuel parameter
(`PError.fuelOut` marks exhaustion, a model artifact).  The loops burn one
fuel unit per iteration and start with `input.length + 1` units; since every
iteration of the source loops consumes at least one byte, exhaustion is
unreachable on the paths the source program takes.  Likewise the entry point
runs the mutual parsers with `input.length + 1` fuel, enough for any input
because every recursion step of the source consumes input first.

Numbers: machine integers are modelled as `Int` with explicit two's-complement
reinterpretation (`transmute` for `u8 -> i8`, big-endian assembly for the
wider types); the `length as usize` cast is `mod 2^64` (64-bit target).
`f32`/`f64` payloads are kept as their raw big-endian bit patterns, which is
all the parser ever does with them.  Rust `String`s are kept as their UTF-8
byte lists together with the validation `String::from_utf8` performs.
-/

namespace Nbt

/-! ## Data model (`UnnamedTag`, `NamedTag` from src/lib.rs) -/

mutual

/-- An unnamed tag (the `UnnamedTag` enum of src/lib.rs).  `Byte`, `Short`,
`Int`, `Long` carry the mathematical value of the machine integer; `Float` and
`Double` carry the raw IEEE-754 bit pattern; `String` carries the UTF-8 bytes
of the Rust `String`. -/
inductive UnnamedTag : Type where
  | End : UnnamedTag
  | Byte (v : Int) : UnnamedTag
  | Short (v : Int) : UnnamedTag
  | Int (v : Int) : UnnamedTag
  | Long (v : Int) : UnnamedTag
  | Float (bits : Nat) : UnnamedTag
  | Double (bits : Nat) : UnnamedTag
  | ByteArray (vs : List Int) : UnnamedTag
  | String (bs : List UInt8) : UnnamedTag
  | List (es : List UnnamedTag) : UnnamedTag
  | Compound (ts : List NamedTag) : UnnamedTag

/-- A named tag (the `NamedTag` struct of src/lib.rs): a name and a content. -/
inductive NamedTag : Type where
  | mk (name : List UInt8) (content : UnnamedTag) : NamedTag

end

/-- Field accessor for `NamedTag.name`. -/
def NamedTag.name : NamedTag → List UInt8
  | .mk n _ => n

/-- Field accessor for `NamedTag.content`. -/
def NamedTag.content : NamedTag → UnnamedTag
  | .mk _ c => c

/-- The `tag.content == UnnamedTag::End` comparison of `compound_tag`
(src/lib.rs line 180): `End` carries no data, so `PartialEq` against it is
exactly a variant check. -/
def UnnamedTag.isEnd : UnnamedTag → Bool
  | .End => true
  | _ => false

/-- The NBT type id of a decoded tag's variant (0–10, the discriminants of the
format's dispatch table). -/
def UnnamedTag.tagId : UnnamedTag → ℤ
  | .End => 0
  | .Byte _ => 1
  | .Short _ => 2
  | .Int _ => 3
  | .Long _ => 4
  | .Float _ => 5
  | .Double _ => 6
  | .ByteArray _ => 7
  | .String _ => 8
  | .List _ => 9
  | .Compound _ => 10

/-! ## Parse results and the `combine` combinators the crate uses -/

/-- Parse errors, at the granularity the claims need.  `eoi` is `combine`'s
end-of-input error (the spec's `TruncatedInput`); `unexpectedToken a es` is
the error of a failed `byte` parser (or the merge of several alternatives'):
the byte `a` was found where one of `es` was expected — for a type-id byte
outside 0–10 this is the spec's `UnknownTagType`; `unexpectedMsg` is
`combine::unexpected`; `fuelOut` is the model's fuel artifact, unreachable on
the source's paths. -/
inductive PError : Type where
  | eoi : PError
  | unexpectedToken (actual : UInt8) (expected : List UInt8) : PError
  | unexpectedMsg (msg : String) : PError
  | fuelOut : PError
deriving DecidableEq

/-- Merging the errors of two alternatives that both failed without consuming
(`combine` unions the error information collected at the failing position). -/
def PError.merge : PError → PError → PError
  | .unexpectedToken a l1, .unexpectedToken _ l2 => .unexpectedToken a (l1 ++ l2)
  | .eoi, _ => .eoi
  | e, _ => e

/-- Result of running a parser: success or failure, each recording whether
input was consumed (`combine`'s `Consumed`/`Empty` distinction), or a Rust
panic unwinding out of the parse. -/
inductive PResult (α : Type) : Type where
  | ok (consumed : Bool) (val : α) (rest : List UInt8) : PResult α
  | err (consumed : Bool) (e : PError) : PResult α
  | panicked (msg : String) : PResult α

/-- A parser over the remaining input. -/
def Parser (α : Type) : Type := List UInt8 → PResult α

/-- `combine`'s `any`: consume one byte, fail empty at end of input. -/
def any : Parser UInt8 := fun input =>
  match input with
  | [] => .err false .eoi
  | x :: rest => .ok true x rest

/-- `combine`'s `byte b`: consume the byte if it matches, otherwise fail
without consuming. -/
def byte (b : UInt8) : Parser UInt8 := fun input =>
  match input with
  | [] => .err false .eoi
  | x :: rest => if x = b then .ok true x rest else .err false (.unexpectedToken x [b])

/-- `combine`'s `unexpected msg`: always fails without consuming input. -/
def unexpectedP (msg : String) : Parser α := fun _ => .err false (.unexpectedMsg msg)

/-- Sequencing (`then` of `combine`, i.e. monadic bind).  Consumption flags
accumulate; a failure after consumption is a consumed failure. -/
def pbind (p : Parser α) (f : α → Parser β) : Parser β := fun input =>
  match p input with
  | .panicked m => .panicked m
  | .err c e => .err c e
  | .ok c v rest =>
    match f v rest with
    | .panicked m => .panicked m
    | .err c2 e => .err (c || c2) e
    | .ok c2 v2 rest2 => .ok (c || c2) v2 rest2

/-- `combine`'s `map`. -/
def pmap (p : Parser α) (f : α → β) : Parser β := fun input =>
  match p input with
  | .ok c v rest => .ok c (f v) rest
  | .err c e => .err c e
  | .panicked m => .panicked m

/-- `combine`'s `and`: run both, pair the outputs. -/
def pand (p : Parser α) (q : Parser β) : Parser (α × β) :=
  pbind p (fun a => pmap q (fun b => (a, b)))

/-- `combine`'s `with`: run both, keep the second output. -/
def pwith (p : Parser α) (q : Parser β) : Parser β :=
  pbind p (fun _ => q)

/-- `combine`'s `skip`: run both, keep the first output. -/
def pskip (p : Parser α) (q : Parser β) : Parser α :=
  pbind p (fun a => pmap q (fun _ => a))

/-- `combine`'s `or` (what the `choice!` macro chains): a consumed failure of
the first alternative aborts; an empty failure tries the second on the same
input (the checkpoint is restored), merging errors if it also fails empty. -/
def por (p q : Parser α) : Parser α := fun input =>
  match p input with
  | .ok c v rest => .ok c v rest
  | .panicked m => .panicked m
  | .err true e => .err true e
  | .err false e1 =>
    match q input with
    | .ok c v rest => .ok c v rest
    | .panicked m => .panicked m
    | .err true e2 => .err true e2
    | .err false e2 => .err false (e1.merge e2)

/-- Loop body of `combine`'s `count n p`: parse `p` up to `n` times, stopping
with the items collected so far when `p` fails without consuming.  `fuel`
bounds the iterations (the source loop advances through the input, so
`input.length + 1` units never run out on its paths). -/
def countAux (p : Parser α) : Nat → Nat → Parser (List α) := fun fuel n input =>
  if n = 0 then .ok false [] input
  else
    match fuel with
    | 0 => .err false .fuelOut
    | f + 1 =>
      match p input with
      | .panicked m => .panicked m
      | .err false _ => .ok false [] input
      | .err true e => .err true e
      | .ok c v rest =>
        match countAux p f (n - 1) rest with
        | .panicked m => .panicked m
        | .err c2 e => .err (c || c2) e
        | .ok c2 vs rest2 => .ok (c || c2) (v :: vs) rest2

/-- `combine`'s `count n p` (zero up to `n` repetitions of `p`). -/
def count (n : Nat) (p : Parser α) : Parser (List α) := fun input =>
  countAux p (input.length + 1) n input

/-- Loop body of `combine`'s `many p`: parse `p` until it fails without
consuming; a consumed failure fails the whole loop. -/
def manyAux (p : Parser α) : Nat → Parser (List α) := fun fuel input =>
  match fuel with
  | 0 => .err false .fuelOut
  | f + 1 =>
    match p input with
    | .panicked m => .panicked m
    | .err false _ => .ok false [] input
    | .err true e => .err true e
    | .ok c v rest =>
      match manyAux p f rest with
      | .panicked m => .panicked m
      | .err c2 e => .err (c || c2) e
      | .ok c2 vs rest2 => .ok (c || c2) (v :: vs) rest2

/-- `combine`'s `many p`. -/
def many (p : Parser α) : Parser (List α) := fun input =>
  manyAux p (input.length + 1) input

/-! ## Numeric decoding (src/lib.rs `i8` and `combine`'s `be_*` parsers) -/

/-- `mem::transmute::<u8, i8>`: bit-preserving reinterpretation. -/
def transmuteI8 (b : UInt8) : Int :=
  if b.toNat < 128 then (b.toNat : Int) else (b.toNat : Int) - 256

/-- Two's-complement reinterpretation of an unsigned `bits`-wide value. -/
def toSigned (bits : Nat) (n : Nat) : Int :=
  if n < 2 ^ (bits - 1) then (n : Int) else (n : Int) - 2 ^ bits

/-- The `length as usize` cast (64-bit target): sign-extend and reinterpret
modulo `2^64`, so a negative `i32` becomes a huge count. -/
def usizeCast (i : Int) : Nat := (i % (2 ^ 64 : Int)).toNat

/-- The crate's `i8()` parser: one byte, transmuted. -/
def i8 : Parser Int := pmap any transmuteI8

/-- `combine`'s `be_u16`: two bytes, big-endian. -/
def be_u16 : Parser Nat :=
  pbind any fun b0 => pmap any fun b1 => b0.toNat * 256 + b1.toNat

/-- Big-endian 32-bit unsigned read (four `any`s, failing like `combine`'s
`be_i32` does on truncation). -/
def be_u32 : Parser Nat :=
  pbind any fun b0 => pbind any fun b1 => pbind any fun b2 => pmap any fun b3 =>
    ((b0.toNat * 256 + b1.toNat) * 256 + b2.toNat) * 256 + b3.toNat

/-- Big-endian 64-bit unsigned read. -/
def be_u64 : Parser Nat :=
  pbind be_u32 fun hi => pmap be_u32 fun lo => hi * 2 ^ 32 + lo

/-- `combine`'s `be_i16`. -/
def be_i16 : Parser Int := pmap be_u16 (toSigned 16)

/-- `combine`'s `be_i32`. -/
def be_i32 : Parser Int := pmap be_u32 (toSigned 32)

/-- `combine`'s `be_i64`. -/
def be_i64 : Parser Int := pmap be_u64 (toSigned 64)

/-- `combine`'s `be_f32`: four bytes whose big-endian value is the `f32` bit
pattern (the model keeps the bits). -/
def be_f32 : Parser Nat := be_u32

/-- `combine`'s `be_f64`: eight bytes, kept as the `f64` bit pattern. -/
def be_f64 : Parser Nat := be_u64

/-! ## UTF-8 validation (what `String::from_utf8` checks) -/

/-- A UTF-8 continuation byte, `0x80..=0xBF`. -/
def isCont (b : UInt8) : Bool := 0x80 ≤ b.toNat && b.toNat ≤ 0xBF

/-- The UTF-8 validity check `String::from_utf8` performs (RFC 3629: overlong
forms, surrogates and values above U+10FFFF rejected). -/
def isValidUtf8 : List UInt8 → Bool
  | [] => true
  | b :: rest =>
    if b.toNat < 0x80 then isValidUtf8 rest
    else if b.toNat < 0xC2 then false
    else if b.toNat < 0xE0 then
      match rest with
      | b1 :: r => isCont b1 && isValidUtf8 r
      | [] => false
    else if b.toNat < 0xF0 then
      match rest with
      | b1 :: b2 :: r =>
        (if b.toNat = 0xE0 then 0xA0 ≤ b1.toNat && b1.toNat ≤ 0xBF
         else if b.toNat = 0xED then 0x80 ≤ b1.toNat && b1.toNat ≤ 0x9F
         else isCont b1) && isCont b2 && isValidUtf8 r
      | _ => false
    else if b.toNat < 0xF5 then
      match rest with
      | b1 :: b2 :: b3 :: r =>
        (if b.toNat = 0xF0 then 0x90 ≤ b1.toNat && b1.toNat ≤ 0xBF
         else if b.toNat = 0xF4 then 0x80 ≤ b1.toNat && b1.toNat ≤ 0x8F
         else isCont b1) && isCont b2 && isCont b3 && isValidUtf8 r
      | _ => false
    else false

/-- The message of the panic `String::from_utf8(contents).unwrap()` raises on
invalid UTF-8 (src/lib.rs line 75). -/
def utf8PanicMsg : String := "String::from_utf8 failed: invalid UTF-8"

/-! ## The tag parsers (src/lib.rs lines 67–219) -/

/-- `name()` (src/lib.rs lines 67–76): a 16-bit big-endian length, then *up
to* that many bytes (`combine`'s `count`), then `String::from_utf8(..)
.unwrap()`, which panics on invalid UTF-8. -/
def name : Parser (List UInt8) :=
  pbind be_u16 fun length =>
    pbind (count length any) fun contents =>
      fun input =>
        if isValidUtf8 contents then .ok false contents input
        else .panicked utf8PanicMsg

/-- `end_tag()` (src/lib.rs lines 78–88): the byte 0, mapped to an unnamed
`End` with an empty name. -/
def end_tag : Parser NamedTag :=
  pmap (byte 0) (fun _ => NamedTag.mk [] UnnamedTag.End)

/-- `byte_tag()` (`simple_number_tag!` over `i8`). -/
def byte_tag : Parser UnnamedTag := pmap i8 UnnamedTag.Byte

/-- `short_tag()` (`simple_number_tag!` over `be_i16`). -/
def short_tag : Parser UnnamedTag := pmap be_i16 UnnamedTag.Short

/-- `int_tag()` (`simple_number_tag!` over `be_i32`). -/
def int_tag : Parser UnnamedTag := pmap be_i32 UnnamedTag.Int

/-- `long_tag()` (`simple_number_tag!` over `be_i64`). -/
def long_tag : Parser UnnamedTag := pmap be_i64 UnnamedTag.Long

/-- `float_tag()` (`simple_number_tag!` over `be_f32`). -/
def float_tag : Parser UnnamedTag := pmap be_f32 UnnamedTag.Float

/-- `double_tag()` (`simple_number_tag!` over `be_f64`). -/
def double_tag : Parser UnnamedTag := pmap be_f64 UnnamedTag.Double

/-- `bytearray_tag()` (src/lib.rs lines 119–128): a 32-bit signed big-endian
length, cast `as usize`, then *up to* that many `i8`s. -/
def bytearray_tag : Parser UnnamedTag :=
  pmap (pbind be_i32 fun length => count (usizeCast length) i8) UnnamedTag.ByteArray

/-- `string_tag()` (src/lib.rs lines 130–137). -/
def string_tag : Parser UnnamedTag := pmap name UnnamedTag.String

/-- The `do_it!` macro of `named_tag` (src/lib.rs lines 197–204):
`byte(num).with(name()).and(parser)`, packed into a `NamedTag`. -/
def taggedWith (num : UInt8) (p : Parser UnnamedTag) : Parser NamedTag :=
  pmap (pand (pwith (byte num) name) p) (fun nc => NamedTag.mk nc.1 nc.2)

/-- The closure `compound_tag` feeds to `many` (src/lib.rs lines 178–186):
parse a named tag; if its content is `End`, fail via `combine::unexpected`,
which fails without consuming, so the surrounding `many` stops (the
checkpoint is restored to before the End marker). -/
def compound_item (p : Parser NamedTag) : Parser NamedTag := fun input =>
  match p input with
  | .ok c t rest =>
    if t.content.isEnd then
      .err false (.unexpectedMsg "If you see this, contact github.com/PurpleMyst")
    else .ok c t rest
  | .err c e => .err c e
  | .panicked m => .panicked m

mutual

/-- `named_tag()` (src/lib.rs lines 191–219): the `choice!` over `end_tag`
and the eleven `do_it!` alternatives, one per type id. -/
def named_tag : Nat → Parser NamedTag
  | 0 => fun _ => .err false .fuelOut
  | f + 1 =>
    por end_tag
      (por (taggedWith 1 byte_tag)
        (por (taggedWith 2 short_tag)
          (por (taggedWith 3 int_tag)
            (por (taggedWith 4 long_tag)
              (por (taggedWith 5 float_tag)
                (por (taggedWith 6 double_tag)
                  (por (taggedWith 7 bytearray_tag)
                    (por (taggedWith 8 string_tag)
                      (por (taggedWith 9 (list_tag f))
                        (taggedWith 10 (compound_tag f)))))))))))

/-- The element dispatch closure of `list_tag` (src/lib.rs lines 149–166):
match on the element type id read at the head of the list.  Invalid ids reach
`unexpected("Invalid tagId on TAG_List")` (its dead `.map(|()| End)` never
applies, since `unexpected` always fails). -/
def list_elem : Nat → Int → Parser UnnamedTag
  | 0, _ => fun _ => .err false .fuelOut
  | f + 1, tagId =>
    if tagId = 0 then pmap end_tag NamedTag.content
    else if tagId = 1 then byte_tag
    else if tagId = 2 then short_tag
    else if tagId = 3 then int_tag
    else if tagId = 4 then long_tag
    else if tagId = 5 then float_tag
    else if tagId = 6 then double_tag
    else if tagId = 7 then bytearray_tag
    else if tagId = 8 then string_tag
    else if tagId = 9 then list_tag f
    else if tagId = 10 then compound_tag f
    else unexpectedP "Invalid tagId on TAG_List"

/-- `list_tag()` (src/lib.rs lines 139–170): an `i8` element type id and a
32-bit signed big-endian count, then `count` (up to `length as usize`)
elements parsed by the dispatch closure. -/
def list_tag : Nat → Parser UnnamedTag
  | 0 => fun _ => .err false .fuelOut
  | f + 1 =>
    pmap
      (pbind (pand i8 be_i32) fun il => count (usizeCast il.2) (list_elem f il.1))
      UnnamedTag.List

/-- `compound_tag()` (src/lib.rs lines 172–189): `many` of the guarded named
tag parser, then `skip(end_tag())` consumes the terminating End byte. -/
def compound_tag : Nat → Parser UnnamedTag
  | 0 => fun _ => .err false .fuelOut
  | f + 1 =>
    pmap (pskip (many (compound_item (named_tag f))) end_tag) UnnamedTag.Compound

end

/-! ## Entry point -/

/-- What a call of `decode_uncompressed` observably does: return the root tag,
return an error, or panic. -/
inductive Outcome : Type where
  | ok (root : NamedTag) : Outcome
  | error (e : PError) : Outcome
  | panicked (msg : String) : Outcome

/-- `decode_uncompressed` (src/lib.rs lines 229–232): run `named_tag` once on
the stream and return its output, discarding whatever input remains — no
trailing-data validation.  (`decode`, lines 223–226, is the same after gzip
decompression of the source, which is outside the byte-level model.) -/
def decode_uncompressed (input : List UInt8) : Outcome :=
  match named_tag (input.length + 1) input with
  | .ok _ root _ => .ok root
  | .err _ e => .error e
  | .panicked m => .panicked m

/-! ## Helper lemmas -/

/-- The big-endian encoding of a 16-bit length (how a well-formed stream
carries the length `n ≤ 65535` that `be_u16` reads back). -/
def u16be (n : Nat) : List UInt8 := [UInt8.ofNat (n / 256), UInt8.ofNat (n % 256)]

theorem be_i32_zeros (t : List UInt8) :
    be_i32 (0x00 :: 0x00 :: 0x00 :: 0x00 :: t) = .ok true 0 t := rfl

theorem usizeCast_zero : usizeCast 0 = 0 := rfl

/-- Inversion for `pmap`: a successful map comes from a successful run of the
underlying parser. -/
theorem pmap_ok {α β : Type} {p : Parser α} {g : α → β} {input : List UInt8}
    {c : Bool} {v : β} {rest : List UInt8} (h : pmap p g input = .ok c v rest) :
    ∃ w, p input = .ok c w rest ∧ v = g w := by
  unfold pmap at h
  cases hp : p input with
  | ok c1 w r1 =>
    rw [hp] at h
    simp only [PResult.ok.injEq] at h
    obtain ⟨hc, hv, hr⟩ := h
    subst hc; subst hr
    exact ⟨w, rfl, hv.symm⟩
  | err c1 e => rw [hp] at h; exact absurd h (by simp)
  | panicked m => rw [hp] at h; exact absurd h (by simp)

theorem pbind_ok {α β : Type} {p : Parser α} {f : α → Parser β} {input : List UInt8}
    {c : Bool} {v : β} {rest : List UInt8} (h : pbind p f input = .ok c v rest) :
    ∃ c1 w r1 c2, p input = .ok c1 w r1 ∧ f w r1 = .ok c2 v rest ∧ c = (c1 || c2) := by
  unfold pbind at h
  cases hp : p input with
  | ok c1 w r1 =>
    rw [hp] at h
    dsimp only at h
    cases hf : f w r1 with
    | ok c2 v2 r2 =>
      rw [hf] at h
      simp only [PResult.ok.injEq] at h
      obtain ⟨hc, hv, hr⟩ := h
      subst hv; subst hr
      exact ⟨c1, w, r1, c2, rfl, hf, hc.symm⟩
    | err c2 e => rw [hf] at h; exact absurd h (by simp)
    | panicked m => rw [hf] at h; exact absurd h (by simp)
  | err c1 e => rw [hp] at h; exact absurd h (by simp)
  | panicked m => rw [hp] at h; exact absurd h (by simp)

/-- Every item `count` collects is an output of a successful run of the item
parser. -/
theorem countAux_mem {α : Type} {p : Parser α} {P : α → Prop}
    (hp : ∀ input c v rest, p input = .ok c v rest → P v) :
    ∀ (fuel n : Nat) (input : List UInt8) (c : Bool) (vs : List α) (rest : List UInt8),
      countAux p fuel n input = .ok c vs rest → ∀ v ∈ vs, P v := by
  intro fuel
  induction fuel with
  | zero =>
    intro n input c vs rest h v hv
    rw [countAux] at h
    by_cases hn : n = 0
    · rw [hn, if_pos rfl] at h
      simp only [PResult.ok.injEq] at h
      rcases h with ⟨rfl, rfl, rfl⟩
      exact absurd hv (by simp)
    · rw [if_neg hn] at h
      exact absurd h (by simp)
  | succ f ih =>
    intro n input c vs rest h v hv
    rw [countAux] at h
    by_cases hn : n = 0
    · rw [hn, if_pos rfl] at h
      simp only [PResult.ok.injEq] at h
      rcases h with ⟨rfl, rfl, rfl⟩
      exact absurd hv (by simp)
    · rw [if_neg hn] at h
      cases hpi : p input with
      | panicked m => rw [hpi] at h; exact absurd h (by simp)
      | err ce e =>
        rw [hpi] at h
        cases ce with
        | false =>
          dsimp only at h
          simp only [PResult.ok.injEq] at h
          rcases h with ⟨rfl, rfl, rfl⟩
          exact absurd hv (by simp)
        | true => dsimp only at h; exact absurd h (by simp)
      | ok c1 v1 rest1 =>
        rw [hpi] at h
        dsimp only at h
        cases hrec : countAux p f (n - 1) rest1 with
        | panicked m => rw [hrec] at h; exact absurd h (by simp)
        | err c2 e => rw [hrec] at h; exact absurd h (by simp)
        | ok c2 vs2 rest2 =>
          rw [hrec] at h
          simp only [PResult.ok.injEq] at h
          rcases h with ⟨rfl, rfl, rfl⟩
          cases hv with
          | head => exact hp _ _ _ _ hpi
          | tail _ hm => exact ih _ _ _ _ _ hrec v hm

/-- Every item `many` collects is an output of a successful run of the item
parser. -/
theorem manyAux_mem {α : Type} {p : Parser α} {P : α → Prop}
    (hp : ∀ input c v rest, p input = .ok c v rest → P v) :
    ∀ (fuel : Nat) (input : List UInt8) (c : Bool) (vs : List α) (rest : List UInt8),
      manyAux p fuel input = .ok c vs rest → ∀ v ∈ vs, P v := by
  intro fuel
  induction fuel with
  | zero =>
    intro input c vs rest h v hv
    rw [manyAux] at h
    exact absurd h (by simp)
  | succ f ih =>
    intro input c vs rest h v hv
    rw [manyAux] at h
    cases hpi : p input with
    | panicked m => rw [hpi] at h; exact absurd h (by simp)
    | err ce e =>
      rw [hpi] at h
      cases ce with
      | false =>
        dsimp only at h
        simp only [PResult.ok.injEq] at h
        rcases h with ⟨rfl, rfl, rfl⟩
        exact absurd hv (by simp)
      | true => dsimp only at h; exact absurd h (by simp)
    | ok c1 v1 rest1 =>
      rw [hpi] at h
      dsimp only at h
      cases hrec : manyAux p f rest1 with
      | panicked m => rw [hrec] at h; exact absurd h (by simp)
      | err c2 e => rw [hrec] at h; exact absurd h (by simp)
      | ok c2 vs2 rest2 =>
        rw [hrec] at h
        simp only [PResult.ok.injEq] at h
        rcases h with ⟨rfl, rfl, rfl⟩
        cases hv with
        | head => exact hp _ _ _ _ hpi
        | tail _ hm => exact ih _ _ _ _ hrec v hm

/-- With enough bytes available, `count n any` reads exactly `n` bytes (the
early stop only happens at end of input, since `any` never fails otherwise). -/
theorem countAux_any_exact :
    ∀ (bs rest : List UInt8) (fuel : Nat), bs.length < fuel →
      countAux any fuel bs.length (bs ++ rest) = .ok (!bs.isEmpty) bs rest := by
  intro bs
  induction bs with
  | nil =>
    intro rest fuel _
    cases fuel with
    | zero => rw [countAux]; simp
    | succ f => rw [countAux]; simp
  | cons b bs ih =>
    intro rest fuel hf
    simp only [List.length_cons] at hf
    cases fuel with
    | zero => exact absurd hf (Nat.not_lt_zero _)
    | succ f =>
      have hih := ih rest f (by omega)
      rw [countAux]
      simp [any, hih, List.cons_append, Nat.add_sub_cancel]

theorem toNat_ofNat8 (x : Nat) : (UInt8.ofNat x).toNat = x % 256 := rfl

/-- Reading back a well-formed 16-bit big-endian length. -/
theorem be_u16_u16be (n : Nat) (t : List UInt8) (hn : n ≤ 65535) :
    be_u16 (u16be n ++ t) = .ok true n t := by
  have harith : n / 256 % 256 * 256 + n % 256 = n := by omega
  simp [u16be, be_u16, pbind, pmap, any, toNat_ofNat8, harith]

/-- A zero-length name parses to the empty byte string. -/
theorem name_nil (t : List UInt8) : name (0x00 :: 0x00 :: t) = .ok true [] t := rfl

/-- `name` on a well-formed length-prefixed field: with the declared number of
bytes available it reads exactly those bytes, then validates them as UTF-8 —
succeeding on valid UTF-8 and panicking otherwise. -/
theorem name_spec (bs rest : List UInt8) (hlen : bs.length ≤ 65535) :
    name (u16be bs.length ++ (bs ++ rest)) =
      if isValidUtf8 bs then .ok true bs rest else .panicked utf8PanicMsg := by
  have hu := be_u16_u16be bs.length (bs ++ rest) hlen
  have hc : count bs.length any (bs ++ rest) = .ok (!bs.isEmpty) bs rest := by
    rw [count]
    exact countAux_any_exact bs rest _ (by simp [List.length_append]; omega)
  simp only [name, pbind, hu, hc]
  by_cases hv : isValidUtf8 bs <;> simp [hv]

/-- A leading 0 byte makes `named_tag` succeed immediately through its first
`choice!` alternative, `end_tag`, consuming only that byte. -/
theorem named_tag_zero (f : Nat) (rest : List UInt8) :
    named_tag (f + 1) (0x00 :: rest) = .ok true (.mk [] .End) rest := by
  simp [named_tag, por, end_tag, byte, pmap]

/-- A malformed-UTF-8 `String` payload makes `string_tag` panic. -/
theorem string_tag_panics {payload : List UInt8} (junk : List UInt8)
    (hv : isValidUtf8 payload = false) (hlen : payload.length ≤ 65535) :
    string_tag (u16be payload.length ++ (payload ++ junk)) = .panicked utf8PanicMsg := by
  simp [string_tag, pmap, name_spec payload junk hlen, hv]

/-- A panic inside the `String` payload of a named tag unwinds out of the
whole `choice!`. -/
theorem named_tag_string_panics (f : Nat) (u : List UInt8) (m : String)
    (h : string_tag u = .panicked m) :
    named_tag (f + 1) (0x08 :: 0x00 :: 0x00 :: u) = .panicked m := by
  simp [named_tag, por, taggedWith, pand, pwith, pbind, pmap, end_tag, byte, name_nil, h]

/-- A panic in the first named tag inside a compound unwinds out of `many`
and the compound parser. -/
theorem compound_tag_panics (f : Nat) (t : List UInt8) (m : String)
    (h : named_tag f t = .panicked m) :
    compound_tag (f + 1) t = .panicked m := by
  simp [compound_tag, pskip, pbind, pmap, many, manyAux, compound_item, h]

/-- A panic inside a named compound's body unwinds out of the named-tag
`choice!`. -/
theorem named_tag_compound_panics (f : Nat) (t : List UInt8) (m : String)
    (h : compound_tag f t = .panicked m) :
    named_tag (f + 1) (0x0A :: 0x00 :: 0x00 :: t) = .panicked m := by
  simp [named_tag, por, taggedWith, pand, pwith, pbind, pmap, end_tag, byte, name_nil, h]

/-- A successful named compound with empty name wraps a successful
`compound_tag` run. -/
theorem named_tag_compound_ok (f : Nat) (t : List UInt8) (c : Bool)
    (v : UnnamedTag) (rest : List UInt8) (h : compound_tag f t = .ok c v rest) :
    named_tag (f + 1) (0x0A :: 0x00 :: 0x00 :: t) = .ok true (.mk [] v) rest := by
  simp [named_tag, por, taggedWith, pand, pwith, pbind, pmap, end_tag, byte, name_nil, h]

/-- A compound whose body starts with the End byte parses to the empty
compound, consuming exactly that byte. -/
theorem compound_tag_empty (f : Nat) (junk : List UInt8) :
    compound_tag (f + 1 + 1) (0x00 :: junk) = .ok true (.Compound []) junk := by
  simp [compound_tag, pskip, pbind, pmap, many, manyAux, compound_item,
    named_tag_zero, end_tag, byte, NamedTag.content, UnnamedTag.isEnd]

/-- Whatever `list_tag` returns on success is a `List` value. -/
theorem list_tag_ok_shape (f : Nat) (input : List UInt8) (c : Bool)
    (v : UnnamedTag) (rest : List UInt8) (h : list_tag f input = .ok c v rest) :
    ∃ es, v = UnnamedTag.List es := by
  cases f with
  | zero => exact absurd h (by rw [list_tag]; simp)
  | succ f =>
    rw [list_tag] at h
    obtain ⟨w, _, hv⟩ := pmap_ok h
    exact ⟨w, hv⟩

/-- Whatever `compound_tag` returns on success is a `Compound` value. -/
theorem compound_tag_ok_shape (f : Nat) (input : List UInt8) (c : Bool)
    (v : UnnamedTag) (rest : List UInt8) (h : compound_tag f input = .ok c v rest) :
    ∃ ts, v = UnnamedTag.Compound ts := by
  cases f with
  | zero => exact absurd h (by rw [compound_tag]; simp)
  | succ f =>
    rw [compound_tag] at h
    obtain ⟨w, _, hv⟩ := pmap_ok h
    exact ⟨w, hv⟩

set_option maxHeartbeats 1000000 in
/-- The element parser `list_tag` dispatches to yields, on success, a value
whose variant is exactly the element type id read at the head of the list. -/
theorem list_elem_tagId (f : Nat) (id : Int) (input : List UInt8) (c : Bool)
    (v : UnnamedTag) (rest : List UInt8) (h : list_elem f id input = .ok c v rest) :
    v.tagId = id := by
  cases f with
  | zero => exact absurd h (by rw [list_elem]; simp)
  | succ f =>
    rw [list_elem] at h
    split_ifs at h with h0 h1 h2 h3 h4 h5 h6 h7 h8 h9 h10
    · obtain ⟨w, hw, hv⟩ := pmap_ok h
      obtain ⟨w2, _, hw2⟩ := pmap_ok hw
      subst hw2
      subst hv
      simp [NamedTag.content, UnnamedTag.tagId, h0]
    · obtain ⟨w, _, hv⟩ := pmap_ok h
      subst hv
      simp [UnnamedTag.tagId, h1]
    · obtain ⟨w, _, hv⟩ := pmap_ok h
      subst hv
      simp [UnnamedTag.tagId, h2]
    · obtain ⟨w, _, hv⟩ := pmap_ok h
      subst hv
      simp [UnnamedTag.tagId, h3]
    · obtain ⟨w, _, hv⟩ := pmap_ok h
      subst hv
      simp [UnnamedTag.tagId, h4]
    · obtain ⟨w, _, hv⟩ := pmap_ok h
      subst hv
      simp [UnnamedTag.tagId, h5]
    · obtain ⟨w, _, hv⟩ := pmap_ok h
      subst hv
      simp [UnnamedTag.tagId, h6]
    · obtain ⟨w, hw, hv⟩ := pmap_ok h
      subst hv
      simp [UnnamedTag.tagId, h7]
    · obtain ⟨w, hw, hv⟩ := pmap_ok h
      subst hv
      simp [UnnamedTag.tagId, h8]
    · obtain ⟨es, hv⟩ := list_tag_ok_shape f input c v rest h
      subst hv
      simp [UnnamedTag.tagId, h9]
    · obtain ⟨ts, hv⟩ := compound_tag_ok_shape f input c v rest h
      subst hv
      simp [UnnamedTag.tagId, h10]
    · exact absurd h (by simp [unexpectedP])

/-- The guarded named-tag parser inside `compound_tag` only succeeds on a
substantive (non-End) tag. -/
theorem compound_item_ok_not_end (p : Parser NamedTag) (input : List UInt8)
    (c : Bool) (t : NamedTag) (rest : List UInt8)
    (h : compound_item p input = .ok c t rest) : t.content ≠ .End := by
  unfold compound_item at h
  cases hp : p input with
  | ok c1 t1 r1 =>
    rw [hp] at h
    dsimp only at h
    by_cases he : t1.content.isEnd
    · rw [if_pos he] at h
      exact absurd h (by simp)
    · rw [if_neg he] at h
      simp only [PResult.ok.injEq] at h
      rcases h with ⟨rfl, rfl, rfl⟩
      intro hc
      rw [hc] at he
      exact he rfl
  | err c1 e => rw [hp] at h; exact absurd h (by simp)
  | panicked m => rw [hp] at h; exact absurd h (by simp)

/-! ## Well-formed encodings (spec section 6) and decoder correctness

The relations below are the *spec-side* notion of a valid encoding, written
from the spec's binary layout table (section 6) and the data-model invariants
of section 3: all multi-byte integers big-endian; a named tag is a type-id
byte, then (when the id is non-zero) a 2-byte length-prefixed UTF-8 name,
then the payload; a list is a 1-byte element type id, a 4-byte signed count
and that many payloads of that one type; a compound is its substantive named
tags followed by the 0x00 terminator.  They are used only to state and prove
the decoder-correctness direction of C9; every parser fact is still proved
against the source-derived definitions above. -/

/-- Big-endian 2's-complement byte of an `i8` value. -/
def i8enc (v : Int) : UInt8 := UInt8.ofNat (v % 256).toNat

/-- Big-endian encoding of a 32-bit value. -/
def u32be (n : Nat) : List UInt8 :=
  [UInt8.ofNat (n / 2 ^ 24 % 256), UInt8.ofNat (n / 2 ^ 16 % 256),
   UInt8.ofNat (n / 2 ^ 8 % 256), UInt8.ofNat (n % 256)]

/-- Big-endian encoding of a 64-bit value. -/
def u64be (n : Nat) : List UInt8 := u32be (n / 2 ^ 32) ++ u32be (n % 2 ^ 32)

/-- The type-id byte the layout table assigns to each payload variant. -/
def idByte : UnnamedTag → UInt8
  | .End => 0
  | .Byte _ => 1
  | .Short _ => 2
  | .Int _ => 3
  | .Long _ => 4
  | .Float _ => 5
  | .Double _ => 6
  | .ByteArray _ => 7
  | .String _ => 8
  | .List _ => 9
  | .Compound _ => 10

theorem be_u32_u32be (n : Nat) (t : List UInt8) (hn : n < 2 ^ 32) :
    be_u32 (u32be n ++ t) = .ok true n t := by
  have harith : ((n / 2 ^ 24 % 256 % 256 * 256 + n / 2 ^ 16 % 256 % 256) * 256 +
      n / 2 ^ 8 % 256 % 256) * 256 + n % 256 = n := by omega
  simp [u32be, be_u32, pbind, pmap, any, toNat_ofNat8]
  omega

theorem be_u64_u64be (n : Nat) (t : List UInt8) (hn : n < 2 ^ 64) :
    be_u64 (u64be n ++ t) = .ok true n t := by
  have h1 : be_u32 (u32be (n / 2 ^ 32) ++ (u32be (n % 2 ^ 32) ++ t)) =
      .ok true (n / 2 ^ 32) (u32be (n % 2 ^ 32) ++ t) :=
    be_u32_u32be _ _ (by omega)
  have h2 : be_u32 (u32be (n % 2 ^ 32) ++ t) = .ok true (n % 2 ^ 32) t :=
    be_u32_u32be _ _ (by omega)
  simp [u64be, be_u64, pbind, pmap, List.append_assoc, h1, h2, -Nat.reducePow]
  omega

theorem transmuteI8_i8enc (v : Int) (h1 : -128 ≤ v) (h2 : v < 128) :
    transmuteI8 (i8enc v) = v := by
  simp only [transmuteI8, i8enc, toNat_ofNat8]
  split_ifs <;> omega

theorem toSigned16_emod (v : Int) (h1 : -(2 ^ 15) ≤ v) (h2 : v < 2 ^ 15) :
    toSigned 16 (v % 2 ^ 16).toNat = v := by
  simp only [toSigned]
  split_ifs <;> omega

theorem toSigned32_emod (v : Int) (h1 : -(2 ^ 31) ≤ v) (h2 : v < 2 ^ 31) :
    toSigned 32 (v % 2 ^ 32).toNat = v := by
  simp only [toSigned]
  split_ifs <;> omega

theorem toSigned64_emod (v : Int) (h1 : -(2 ^ 63) ≤ v) (h2 : v < 2 ^ 63) :
    toSigned 64 (v % 2 ^ 64).toNat = v := by
  simp only [toSigned]
  split_ifs <;> omega

theorem toSigned32_of_lt (k : Nat) (h : k < 2 ^ 31) : toSigned 32 k = (k : Int) := by
  simp only [toSigned]
  split_ifs with h1
  · rfl
  · omega

theorem usizeCast_coe (k : Nat) (h : k < 2 ^ 64) : usizeCast (k : Int) = k := by
  simp only [usizeCast]
  omega

theorem countAux_i8_exact :
    ∀ (vs : List Int) (rest : List UInt8) (fuel : Nat),
      (∀ v ∈ vs, -128 ≤ v ∧ v < 128) → vs.length < fuel →
      countAux i8 fuel vs.length (vs.map i8enc ++ rest) = .ok (!vs.isEmpty) vs rest := by
  intro vs
  induction vs with
  | nil =>
    intro rest fuel _ _
    cases fuel with
    | zero => rw [countAux]; simp
    | succ f => rw [countAux]; simp
  | cons v vs ih =>
    intro rest fuel hr hf
    simp only [List.length_cons] at hf
    cases fuel with
    | zero => exact absurd hf (Nat.not_lt_zero _)
    | succ f =>
      have hv := hr v (List.Mem.head _)
      have hih := ih rest f (fun w hw => hr w (List.Mem.tail _ hw)) (by omega)
      have hstep : i8 (i8enc v :: (List.map i8enc vs ++ rest)) =
          .ok true v (List.map i8enc vs ++ rest) := by
        simp [i8, pmap, any, transmuteI8_i8enc v hv.1 hv.2]
      rw [countAux]
      simp [hstep, hih, List.cons_append, Nat.add_sub_cancel]

theorem byte_tag_enc (v : Int) (rest : List UInt8) (h1 : -128 ≤ v) (h2 : v < 128) :
    byte_tag (i8enc v :: rest) = .ok true (.Byte v) rest := by
  simp [byte_tag, pmap, i8, any, transmuteI8_i8enc v h1 h2]

theorem short_tag_enc (v : Int) (rest : List UInt8)
    (h1 : -(2 ^ 15) ≤ v) (h2 : v < 2 ^ 15) :
    short_tag (u16be (v % 2 ^ 16).toNat ++ rest) = .ok true (.Short v) rest := by
  simp [short_tag, be_i16, pmap, be_u16_u16be (v % 2 ^ 16).toNat rest (by omega),
    toSigned16_emod v h1 h2, -Nat.reducePow, -Int.reducePow]

theorem int_tag_enc (v : Int) (rest : List UInt8)
    (h1 : -(2 ^ 31) ≤ v) (h2 : v < 2 ^ 31) :
    int_tag (u32be (v % 2 ^ 32).toNat ++ rest) = .ok true (.Int v) rest := by
  simp [int_tag, be_i32, pmap, be_u32_u32be (v % 2 ^ 32).toNat rest (by omega),
    toSigned32_emod v h1 h2, -Nat.reducePow, -Int.reducePow]

theorem long_tag_enc (v : Int) (rest : List UInt8)
    (h1 : -(2 ^ 63) ≤ v) (h2 : v < 2 ^ 63) :
    long_tag (u64be (v % 2 ^ 64).toNat ++ rest) = .ok true (.Long v) rest := by
  simp [long_tag, be_i64, pmap, be_u64_u64be (v % 2 ^ 64).toNat rest (by omega),
    toSigned64_emod v h1 h2, -Nat.reducePow, -Int.reducePow]

theorem float_tag_enc (bits : Nat) (rest : List UInt8) (h : bits < 2 ^ 32) :
    float_tag (u32be bits ++ rest) = .ok true (.Float bits) rest := by
  simp [float_tag, be_f32, pmap, be_u32_u32be bits rest h]

theorem double_tag_enc (bits : Nat) (rest : List UInt8) (h : bits < 2 ^ 64) :
    double_tag (u64be bits ++ rest) = .ok true (.Double bits) rest := by
  simp [double_tag, be_f64, pmap, be_u64_u64be bits rest h]

theorem string_tag_enc (bs rest : List UInt8) (hlen : bs.length < 2 ^ 16)
    (hv : isValidUtf8 bs = true) :
    string_tag (u16be bs.length ++ (bs ++ rest)) = .ok true (.String bs) rest := by
  simp [string_tag, pmap, name_spec bs rest (by omega), hv]

theorem bytearray_tag_enc (vs : List Int) (rest : List UInt8)
    (hr : ∀ v ∈ vs, -128 ≤ v ∧ v < 128) (hlen : vs.length < 2 ^ 31) :
    bytearray_tag (u32be vs.length ++ (vs.map i8enc ++ rest)) =
      .ok true (.ByteArray vs) rest := by
  have hu : be_i32 (u32be vs.length ++ (vs.map i8enc ++ rest)) =
      .ok true (vs.length : Int) (vs.map i8enc ++ rest) := by
    simp [be_i32, pmap, be_u32_u32be vs.length _ (by omega), toSigned32_of_lt vs.length hlen]
  have hcast : usizeCast (vs.length : Int) = vs.length := usizeCast_coe _ (by omega)
  have hcount : count vs.length i8 (vs.map i8enc ++ rest) = .ok (!vs.isEmpty) vs rest := by
    rw [count]
    exact countAux_i8_exact vs rest _ hr (by simp [List.length_append, List.length_map]; omega)
  simp only [bytearray_tag, pmap, pbind, hu, hcast, hcount]
  cases vs <;> simp

mutual

/-- A well-formed payload encoding, per the spec's binary layout (section 6):
each numeric payload is its fixed-width big-endian two's-complement (or raw
IEEE-754 bit-pattern) bytes; a `ByteArray` is a 4-byte non-negative length and
that many signed bytes; a `String` is a 2-byte length and that many valid
UTF-8 bytes; a `List` is a 1-byte element type id (0–10), a 4-byte
non-negative count and that many payloads of that one type; a `Compound` is
its substantive named tags followed by the terminating 0x00.  `End` has no
payload encoding of its own (it is the sentinel). -/
inductive EncodesPayload : UnnamedTag → List UInt8 → Prop where
  | byte (v : Int) (h1 : -128 ≤ v) (h2 : v < 128) :
      EncodesPayload (.Byte v) [i8enc v]
  | short (v : Int) (h1 : -(2 ^ 15) ≤ v) (h2 : v < 2 ^ 15) :
      EncodesPayload (.Short v) (u16be (v % 2 ^ 16).toNat)
  | int (v : Int) (h1 : -(2 ^ 31) ≤ v) (h2 : v < 2 ^ 31) :
      EncodesPayload (.Int v) (u32be (v % 2 ^ 32).toNat)
  | long (v : Int) (h1 : -(2 ^ 63) ≤ v) (h2 : v < 2 ^ 63) :
      EncodesPayload (.Long v) (u64be (v % 2 ^ 64).toNat)
  | float (bits : Nat) (h : bits < 2 ^ 32) :
      EncodesPayload (.Float bits) (u32be bits)
  | double (bits : Nat) (h : bits < 2 ^ 64) :
      EncodesPayload (.Double bits) (u64be bits)
  | bytearray (vs : List Int) (hr : ∀ v ∈ vs, -128 ≤ v ∧ v < 128)
      (hlen : vs.length < 2 ^ 31) :
      EncodesPayload (.ByteArray vs) (u32be vs.length ++ vs.map i8enc)
  | string (bs : List UInt8) (hlen : bs.length < 2 ^ 16) (hv : isValidUtf8 bs = true) :
      EncodesPayload (.String bs) (u16be bs.length ++ bs)
  | list (id : Int) (es : List UnnamedTag) (ps : List UInt8)
      (hid0 : 0 ≤ id) (hid10 : id ≤ 10) (hlen : es.length < 2 ^ 31)
      (helems : EncodesListElems id es ps) :
      EncodesPayload (.List es) (UInt8.ofNat id.toNat :: (u32be es.length ++ ps))
  | compound (ts : List NamedTag) (ps : List UInt8)
      (hitems : EncodesCompoundItems ts ps) :
      EncodesPayload (.Compound ts) (ps ++ [0x00])

/-- A well-formed named-tag encoding (spec section 6): type id 0 is the bare
End byte with no name; any other tag is its type-id byte, a 2-byte
length-prefixed valid-UTF-8 name, and its payload. -/
inductive EncodesNamed : NamedTag → List UInt8 → Prop where
  | end_ : EncodesNamed (.mk [] .End) [0x00]
  | tagged (nm : List UInt8) (u : UnnamedTag) (p : List UInt8)
      (hnm : nm.length < 2 ^ 16) (hval : isValidUtf8 nm = true)
      (hu : EncodesPayload u p) :
      EncodesNamed (.mk nm u) (idByte u :: (u16be nm.length ++ (nm ++ p)))

/-- The concatenated payload encodings of a list's elements, all sharing the
declared element type id (spec section 3's homogeneity invariant). -/
inductive EncodesListElems : Int → List UnnamedTag → List UInt8 → Prop where
  | nil (id : Int) : EncodesListElems id [] []
  | cons (id : Int) (e : UnnamedTag) (p : List UInt8) (es : List UnnamedTag)
      (ps : List UInt8) (he : EncodesPayload e p) (hid : e.tagId = id)
      (hes : EncodesListElems id es ps) :
      EncodesListElems id (e :: es) (p ++ ps)

/-- The concatenated encodings of a compound's substantive named tags (spec
section 3: the stored sequence holds only non-End tags). -/
inductive EncodesCompoundItems : List NamedTag → List UInt8 → Prop where
  | nil : EncodesCompoundItems [] []
  | cons (t : NamedTag) (p : List UInt8) (ts : List NamedTag) (ps : List UInt8)
      (ht : EncodesNamed t p) (hne : t.content ≠ .End)
      (hts : EncodesCompoundItems ts ps) :
      EncodesCompoundItems (t :: ts) (p ++ ps)

end

/-- Every payload encoding is non-empty. -/
theorem encodesPayload_pos {u : UnnamedTag} {p : List UInt8}
    (h : EncodesPayload u p) : 1 ≤ p.length := by
  cases h <;> simp [u16be, u32be, u64be]

/-- Every named-tag encoding is non-empty. -/
theorem encodesNamed_pos {t : NamedTag} {p : List UInt8}
    (h : EncodesNamed t p) : 1 ≤ p.length := by
  cases h <;> simp

/-- A list's element count is at most the length of its encoded elements. -/
theorem encodesListElems_length {id : Int} :
    ∀ {es : List UnnamedTag} {ps : List UInt8},
      EncodesListElems id es ps → es.length ≤ ps.length := by
  intro es
  induction es with
  | nil => intro ps h; cases h; simp
  | cons e es ih =>
    intro ps h
    cases h with
    | cons _ _ p _ ps' he _ hes =>
      have h1 := encodesPayload_pos he
      have h2 := ih hes
      simp only [List.length_cons, List.length_append]
      omega

/-- A compound's item count is at most the length of its encoded items. -/
theorem encodesCompoundItems_length :
    ∀ {ts : List NamedTag} {ps : List UInt8},
      EncodesCompoundItems ts ps → ts.length ≤ ps.length := by
  intro ts
  induction ts with
  | nil => intro ps h; cases h; simp
  | cons t ts ih =>
    intro ps h
    cases h with
    | cons _ p _ ps' ht _ hts =>
      have h1 := encodesNamed_pos ht
      have h2 := ih hts
      simp only [List.length_cons, List.length_append]
      omega

theorem list_elem_zero (g : Nat) : list_elem (g + 1) 0 = pmap end_tag NamedTag.content := rfl

theorem list_elem_one (g : Nat) : list_elem (g + 1) 1 = byte_tag := rfl

theorem list_elem_two (g : Nat) : list_elem (g + 1) 2 = short_tag := rfl

theorem list_elem_three (g : Nat) : list_elem (g + 1) 3 = int_tag := rfl

theorem list_elem_four (g : Nat) : list_elem (g + 1) 4 = long_tag := rfl

theorem list_elem_five (g : Nat) : list_elem (g + 1) 5 = float_tag := rfl

theorem list_elem_six (g : Nat) : list_elem (g + 1) 6 = double_tag := rfl

theorem list_elem_seven (g : Nat) : list_elem (g + 1) 7 = bytearray_tag := rfl

theorem list_elem_eight (g : Nat) : list_elem (g + 1) 8 = string_tag := rfl

theorem list_elem_nine (g : Nat) : list_elem (g + 1) 9 = list_tag g := rfl

theorem list_elem_ten (g : Nat) : list_elem (g + 1) 10 = compound_tag g := rfl

/-- Bundles of the decoder-correctness statements, indexed by an upper bound
`n` on the encoding length (the strong-induction measure). -/
def RTpayload (n : Nat) : Prop :=
  ∀ (u : UnnamedTag) (p rest : List UInt8) (f : Nat), EncodesPayload u p →
    p.length ≤ n → p.length < f →
    list_elem f u.tagId (p ++ rest) = .ok true u rest

/-- Named-tag decoder correctness at encodings of length at most `n`. -/
def RTnamed (n : Nat) : Prop :=
  ∀ (t : NamedTag) (p rest : List UInt8) (f : Nat), EncodesNamed t p →
    p.length ≤ n → p.length ≤ f →
    named_tag f (p ++ rest) = .ok true t rest

/-- List-element loop correctness at encodings of length at most `n`. -/
def RTelems (n : Nat) : Prop :=
  ∀ (id : Int) (es : List UnnamedTag) (ps rest : List UInt8) (f kfuel : Nat),
    EncodesListElems id es ps → ps.length ≤ n → ps.length < f →
    es.length < kfuel →
    countAux (list_elem f id) kfuel es.length (ps ++ rest) = .ok (!es.isEmpty) es rest

/-- Compound-item loop correctness at encodings of length at most `n`. -/
def RTitems (n : Nat) : Prop :=
  ∀ (ts : List NamedTag) (ps rest : List UInt8) (f kfuel : Nat),
    EncodesCompoundItems ts ps → ps.length ≤ n → ps.length ≤ f →
    ps.length < kfuel →
    manyAux (compound_item (named_tag f)) kfuel (ps ++ (0x00 :: rest)) =
      .ok (!ts.isEmpty) ts (0x00 :: rest)

theorem isEnd_false {u : UnnamedTag} (h : u ≠ .End) : u.isEnd = false := by
  cases u <;> first | exact absurd rfl h | rfl

theorem decode_roundtrip_all :
    ∀ n : Nat, RTpayload n ∧ RTnamed n ∧ RTelems n ∧ RTitems n := by
  intro n
  induction n using Nat.strong_induction_on with
  | _ n ih =>
    have hA : RTpayload n := by
      intro u p rest f henc hn hf
      cases henc with
      | byte v h1 h2 =>
        cases f with
        | zero => exact absurd hf (Nat.not_lt_zero _)
        | succ f0 =>
          rw [show (UnnamedTag.Byte v).tagId = 1 from rfl, list_elem_one,
            List.singleton_append]
          exact byte_tag_enc v rest h1 h2
      | short v h1 h2 =>
        cases f with
        | zero => exact absurd hf (Nat.not_lt_zero _)
        | succ f0 =>
          rw [show (UnnamedTag.Short v).tagId = 2 from rfl, list_elem_two]
          exact short_tag_enc v rest h1 h2
      | int v h1 h2 =>
        cases f with
        | zero => exact absurd hf (Nat.not_lt_zero _)
        | succ f0 =>
          rw [show (UnnamedTag.Int v).tagId = 3 from rfl, list_elem_three]
          exact int_tag_enc v rest h1 h2
      | long v h1 h2 =>
        cases f with
        | zero => exact absurd hf (Nat.not_lt_zero _)
        | succ f0 =>
          rw [show (UnnamedTag.Long v).tagId = 4 from rfl, list_elem_four]
          exact long_tag_enc v rest h1 h2
      | float bits h =>
        cases f with
        | zero => exact absurd hf (Nat.not_lt_zero _)
        | succ f0 =>
          rw [show (UnnamedTag.Float bits).tagId = 5 from rfl, list_elem_five]
          exact float_tag_enc bits rest h
      | double bits h =>
        cases f with
        | zero => exact absurd hf (Nat.not_lt_zero _)
        | succ f0 =>
          rw [show (UnnamedTag.Double bits).tagId = 6 from rfl, list_elem_six]
          exact double_tag_enc bits rest h
      | bytearray vs hr hlen =>
        cases f with
        | zero => exact absurd hf (Nat.not_lt_zero _)
        | succ f0 =>
          rw [show (UnnamedTag.ByteArray vs).tagId = 7 from rfl, list_elem_seven,
            List.append_assoc]
          exact bytearray_tag_enc vs rest hr hlen
      | string bs hlen hv =>
        cases f with
        | zero => exact absurd hf (Nat.not_lt_zero _)
        | succ f0 =>
          rw [show (UnnamedTag.String bs).tagId = 8 from rfl, list_elem_eight,
            List.append_assoc]
          exact string_tag_enc bs rest hlen hv
      | list id es ps hid0 hid10 hlen helems =>
        simp only [List.length_cons, List.length_append, u32be, List.length_nil]
          at hn hf
        cases f with
        | zero => exact absurd hf (Nat.not_lt_zero _)
        | succ f0 =>
          rw [show (UnnamedTag.List es).tagId = 9 from rfl, list_elem_nine]
          cases f0 with
          | zero => exact absurd hf (by omega)
          | succ f1 =>
            have htr : transmuteI8 (UInt8.ofNat id.toNat) = id := by
              simp only [transmuteI8, toNat_ofNat8]
              split_ifs <;> omega
            have hi8 : i8 (UInt8.ofNat id.toNat :: (u32be es.length ++ (ps ++ rest))) =
                .ok true id (u32be es.length ++ (ps ++ rest)) := by
              simp [i8, pmap, any, htr]
            have hbe : be_i32 (u32be es.length ++ (ps ++ rest)) =
                .ok true (es.length : Int) (ps ++ rest) := by
              simp [be_i32, pmap, be_u32_u32be es.length (ps ++ rest) (by omega),
                toSigned32_of_lt es.length hlen]
            have hcast : usizeCast (es.length : Int) = es.length :=
              usizeCast_coe _ (by omega)
            have hcnt : countAux (list_elem f1 id) ((ps ++ rest).length + 1) es.length
                (ps ++ rest) = .ok (!es.isEmpty) es rest := by
              have hlen2 := encodesListElems_length helems
              exact (ih ps.length (by omega)).2.2.1 id es ps rest f1 _ helems le_rfl
                (by omega) (by simp only [List.length_append]; omega)
            rw [list_tag]
            simp only [List.cons_append, List.append_assoc]
            simp only [pmap, pand, pbind, hi8]
            rw [hbe]
            simp only [hcast, count, hcnt]
            cases es <;> simp
      | compound ts ps hitems =>
        simp only [List.length_append, List.length_cons, List.length_nil] at hn hf
        cases f with
        | zero => exact absurd hf (Nat.not_lt_zero _)
        | succ f0 =>
          rw [show (UnnamedTag.Compound ts).tagId = 10 from rfl, list_elem_ten]
          cases f0 with
          | zero => exact absurd hf (by omega)
          | succ f1 =>
            have hmany : manyAux (compound_item (named_tag f1))
                ((ps ++ (0x00 :: rest)).length + 1) (ps ++ (0x00 :: rest)) =
                .ok (!ts.isEmpty) ts (0x00 :: rest) :=
              (ih ps.length (by omega)).2.2.2 ts ps rest f1 _ hitems le_rfl
                (by omega) (by simp only [List.length_append]; omega)
            rw [compound_tag]
            simp only [List.append_assoc, List.cons_append, List.nil_append]
            simp only [pmap, pskip, pbind, many, hmany]
            simp [end_tag, byte, pmap]
    have hB : RTnamed n := by
      intro t p rest f henc hn hf
      cases henc with
      | end_ =>
        cases f with
        | zero => simp at hf
        | succ f0 =>
          simp only [List.singleton_append]
          exact named_tag_zero f0 rest
      | tagged nm u pu hnm hval hu =>
        simp only [List.length_cons, List.length_append, u16be, List.length_cons,
          List.length_nil] at hn hf
        cases f with
        | zero => exact absurd hf (by omega)
        | succ f0 =>
          have hname : ∀ t2 : List UInt8,
              name (u16be nm.length ++ (nm ++ t2)) = .ok true nm t2 := by
            intro t2
            rw [name_spec nm t2 (by omega), if_pos hval]
          simp only [List.cons_append, List.append_assoc]
          cases hu with
          | byte v h1 h2 =>
            have hp : ∀ r, byte_tag (i8enc v :: r) = .ok true (.Byte v) r :=
              fun r => byte_tag_enc v r h1 h2
            simp [named_tag, por, taggedWith, pand, pwith, pbind, pmap, end_tag, byte,
              idByte, hname, hp]
          | short v h1 h2 =>
            have hp : ∀ r, short_tag (u16be (v % 2 ^ 16).toNat ++ r) = .ok true (.Short v) r :=
              fun r => short_tag_enc v r h1 h2
            simp [named_tag, por, taggedWith, pand, pwith, pbind, pmap, end_tag, byte,
              idByte, hname, hp, -Nat.reducePow, -Int.reducePow]
          | int v h1 h2 =>
            have hp : ∀ r, int_tag (u32be (v % 2 ^ 32).toNat ++ r) = .ok true (.Int v) r :=
              fun r => int_tag_enc v r h1 h2
            simp [named_tag, por, taggedWith, pand, pwith, pbind, pmap, end_tag, byte,
              idByte, hname, hp, -Nat.reducePow, -Int.reducePow]
          | long v h1 h2 =>
            have hp : ∀ r, long_tag (u64be (v % 2 ^ 64).toNat ++ r) = .ok true (.Long v) r :=
              fun r => long_tag_enc v r h1 h2
            simp [named_tag, por, taggedWith, pand, pwith, pbind, pmap, end_tag, byte,
              idByte, hname, hp, -Nat.reducePow, -Int.reducePow]
          | float bits h =>
            have hp : ∀ r, float_tag (u32be bits ++ r) = .ok true (.Float bits) r :=
              fun r => float_tag_enc bits r h
            simp [named_tag, por, taggedWith, pand, pwith, pbind, pmap, end_tag, byte,
              idByte, hname, hp]
          | double bits h =>
            have hp : ∀ r, double_tag (u64be bits ++ r) = .ok true (.Double bits) r :=
              fun r => double_tag_enc bits r h
            simp [named_tag, por, taggedWith, pand, pwith, pbind, pmap, end_tag, byte,
              idByte, hname, hp]
          | bytearray vs hr hlen =>
            have hp : ∀ r, bytearray_tag (u32be vs.length ++ (vs.map i8enc ++ r)) =
                .ok true (.ByteArray vs) r :=
              fun r => bytearray_tag_enc vs r hr hlen
            simp [named_tag, por, taggedWith, pand, pwith, pbind, pmap, end_tag, byte,
              idByte, hname, hp]
          | string bs hlen2 hv =>
            have hp : ∀ r, string_tag (u16be bs.length ++ (bs ++ r)) =
                .ok true (.String bs) r :=
              fun r => string_tag_enc bs r hlen2 hv
            simp [named_tag, por, taggedWith, pand, pwith, pbind, pmap, end_tag, byte,
              idByte, hname, hp]
          | list id es ps hid0 hid10 hlen helems =>
            simp only [List.length_cons, List.length_append, u32be, List.length_nil]
              at hn hf
            have hmu : (UInt8.ofNat id.toNat :: (u32be es.length ++ ps)).length < n := by
              simp only [List.length_cons, List.length_append, u32be, List.length_nil]
              omega
            have hp : ∀ r, list_tag f0 (UInt8.ofNat id.toNat :: (u32be es.length ++ (ps ++ r))) =
                .ok true (.List es) r := by
              intro r
              have h2 := (ih _ hmu).1 (.List es) _ r (f0 + 1)
                (EncodesPayload.list id es ps hid0 hid10 hlen helems) le_rfl
                (by simp only [List.length_cons, List.length_append, u32be,
                  List.length_nil]; omega)
              rw [show (UnnamedTag.List es).tagId = 9 from rfl, list_elem_nine] at h2
              simpa [List.cons_append, List.append_assoc] using h2
            simp [named_tag, por, taggedWith, pand, pwith, pbind, pmap, end_tag, byte,
              idByte, hname, hp]
          | compound ts ps hitems =>
            simp only [List.length_append, List.length_cons, List.length_nil] at hn hf
            have hmu : (ps ++ [0x00]).length < n := by
              simp only [List.length_append, List.length_cons, List.length_nil]
              omega
            have hp : ∀ r, compound_tag f0 (ps ++ (0x00 :: r)) =
                .ok true (.Compound ts) r := by
              intro r
              have h2 := (ih _ hmu).1 (.Compound ts) _ r (f0 + 1)
                (EncodesPayload.compound ts ps hitems) le_rfl
                (by simp only [List.length_append, List.length_cons,
                  List.length_nil]; omega)
              rw [show (UnnamedTag.Compound ts).tagId = 10 from rfl, list_elem_ten] at h2
              simpa [List.append_assoc] using h2
            simp [named_tag, por, taggedWith, pand, pwith, pbind, pmap, end_tag, byte,
              idByte, hname, hp]
    have hC : RTelems n := by
      intro id es ps rest f kfuel henc hn hf hk
      cases henc with
      | nil =>
        cases kfuel with
        | zero => rw [countAux]; simp
        | succ k => rw [countAux]; simp
      | cons _ e pe es' ps' he hid hes' =>
        have hpe := encodesPayload_pos he
        simp only [List.length_append] at hn hf
        cases kfuel with
        | zero => exact absurd hk (Nat.not_lt_zero _)
        | succ k =>
          have hhead := hA e pe (ps' ++ rest) f he (by omega) (by omega)
          rw [hid] at hhead
          have htail := (ih ps'.length (by omega)).2.2.1 id es' ps' rest f k hes'
            le_rfl (by omega) (by simp only [List.length_cons] at hk; omega)
          rw [countAux]
          simp only [List.length_cons, List.append_assoc, Nat.add_sub_cancel]
          rw [if_neg (by omega : ¬(es'.length + 1 = 0))]
          rw [hhead]
          dsimp only
          rw [htail]
          simp
    have hD : RTitems n := by
      intro ts ps rest f kfuel henc hn hf hk
      cases henc with
      | nil =>
        cases kfuel with
        | zero => exact absurd hk (Nat.not_lt_zero _)
        | succ k =>
          rw [manyAux]
          cases f with
          | zero => simp [compound_item, named_tag]
          | succ f1 =>
            simp [compound_item, named_tag_zero, NamedTag.content, UnnamedTag.isEnd]
      | cons t pt ts' ps' ht hne hts' =>
        have hpt := encodesNamed_pos ht
        simp only [List.length_append] at hn hf hk
        cases kfuel with
        | zero => exact absurd hk (Nat.not_lt_zero _)
        | succ k =>
          have hhead := hB t pt (ps' ++ (0x00 :: rest)) f ht (by omega) (by omega)
          have htail := (ih ps'.length (by omega)).2.2.2 ts' ps' rest f k hts'
            le_rfl (by omega) (by omega)
          rw [manyAux]
          simp only [List.append_assoc, List.cons_append, List.nil_append]
          rw [show compound_item (named_tag f) (pt ++ (ps' ++ (0x00 :: rest))) =
              .ok true t (ps' ++ (0x00 :: rest)) from by
            simp [compound_item, hhead, isEnd_false hne]]
          dsimp only
          rw [htail]
          simp
    exact ⟨hA, hB, hC, hD⟩

/-! ## Claims -/

/-- C1: the claim says a `String` payload whose declared 16-bit length exceeds
the remaining bytes fails with `TruncatedInput`.  The code instead *succeeds*
with a short read: `combine`'s `count` stops at end of input, so the named
`String` tag `[0x08, name "" , declared length 5, bytes "abc"]` decodes
successfully to `String "abc"` (`0x61 0x62 0x63`). -/
theorem string_short_read_succeeds :
    decode_uncompressed [0x08, 0x00, 0x00, 0x00, 0x05, 0x61, 0x62, 0x63] =
      .ok (.mk [] (.String [0x61, 0x62, 0x63])) := rfl

/-- C2: a length-prefixed string (here a `String` payload inside a compound)
whose bytes are not valid UTF-8 makes the whole decode abort: the
`String::from_utf8(..).unwrap()` failure (the code's realisation of the
spec's `InvalidEncoding`) unwinds through every combinator and surfaces
unchanged at the `decode_uncompressed` entry point — no lossy conversion, no
partial tree. -/
theorem invalid_utf8_aborts_decode (payload junk : List UInt8)
    (hv : isValidUtf8 payload = false) (hlen : payload.length ≤ 65535) :
    decode_uncompressed (0x0A :: 0x00 :: 0x00 :: 0x08 :: 0x00 :: 0x00 ::
      (u16be payload.length ++ (payload ++ junk))) = .panicked utf8PanicMsg := by
  have hs := string_tag_panics junk hv hlen
  have h1 : ∀ g : Nat, named_tag (g + 1)
      (0x08 :: 0x00 :: 0x00 :: (u16be payload.length ++ (payload ++ junk))) =
      .panicked utf8PanicMsg := fun g => named_tag_string_panics g _ _ hs
  have h2 : ∀ g : Nat, named_tag (g + 1 + 1 + 1)
      (0x0A :: 0x00 :: 0x00 :: 0x08 :: 0x00 :: 0x00 ::
        (u16be payload.length ++ (payload ++ junk))) =
      .panicked utf8PanicMsg := fun g =>
    named_tag_compound_panics (g + 1 + 1) _ _ (compound_tag_panics (g + 1) _ _ (h1 g))
  simp only [decode_uncompressed, List.length_cons, h2]

/-- C2 witness: the concrete byte `0xFF` is not UTF-8; a compound holding a
`String` tag with that payload makes the decode abort. -/
theorem invalid_utf8_aborts_decode_witness :
    decode_uncompressed [0x0A, 0x00, 0x00, 0x08, 0x00, 0x00, 0x00, 0x01, 0xFF] =
      .panicked utf8PanicMsg :=
  invalid_utf8_aborts_decode [0xFF] [] (by decide) (by decide)

/-- C3: the claim says negative declared lengths fail with `InvalidLength`
before content is read.  The code has no such check: `length as usize` turns
-1 into `2^64 - 1` and `combine`'s `count` reads up to that many items,
stopping at end of input — a `ByteArray` of declared length -1 decodes
successfully to the empty array, and a `List` with declared count -1 slurps
the remaining byte `0x07` as an element and succeeds. -/
theorem negative_length_reads_available_bytes :
    (decode_uncompressed [0x07, 0x00, 0x00, 0xFF, 0xFF, 0xFF, 0xFF] =
      .ok (.mk [] (.ByteArray []))) ∧
    (decode_uncompressed [0x09, 0x00, 0x00, 0x01, 0xFF, 0xFF, 0xFF, 0xFF, 0x07] =
      .ok (.mk [] (.List [.Byte 7]))) := ⟨rfl, rfl⟩

/-- C4 counterexample: the claim says a `List` with element type id 0 and
count 2 produces 2 `End` elements while consuming no payload bytes.  On the
stream `[0x09, name "", elem id 0, count 2]` (no payload bytes at all) the
code instead returns an *empty* list: each `End` element is parsed by
`end_tag`, which demands a `0x00` byte, and the element loop stops early when
none is available. -/
theorem list_of_end_cex :
    (decode_uncompressed [0x09, 0x00, 0x00, 0x00, 0x00, 0x00, 0x00, 0x02] =
      .ok (.mk [] (.List []))) ∧
    UnnamedTag.List [] ≠ UnnamedTag.List [.End, .End] := ⟨rfl, by simp⟩

/-- C4 (amended): at the named-tag dispatch site, id 0 yields the `End`
sentinel consuming only the id byte itself.  At the list-element site each
`End` element is parsed by `end_tag`, which consumes one `0x00` byte: with two
`0x00` payload bytes present a count-2 End-list decodes to `[End, End]`
consuming those bytes, and with no payload bytes available the element loop
stops early and the list decodes successfully as empty. -/
theorem end_dispatch_sites :
    (∀ (f : Nat) (rest : List UInt8),
      named_tag (f + 1) (0x00 :: rest) = .ok true (.mk [] .End) rest) ∧
    (decode_uncompressed [0x09, 0x00, 0x00, 0x00, 0x00, 0x00, 0x00, 0x02, 0x00, 0x00] =
      .ok (.mk [] (.List [.End, .End]))) ∧
    (decode_uncompressed [0x09, 0x00, 0x00, 0x00, 0x00, 0x00, 0x00, 0x02] =
      .ok (.mk [] (.List []))) :=
  ⟨named_tag_zero, rfl, rfl⟩

/-- C5: the bytes `0x0A 0x00 0x00 0x00 0x00` decode to the named empty
compound, the terminating End byte being consumed and not represented; and in
general every element of a successfully decoded `Compound` is substantive
(its content is never `End`), since the guarded item parser rejects End tags
and the terminator is consumed by `skip(end_tag())`. -/
theorem compound_substantive_elements :
    (decode_uncompressed [0x0A, 0x00, 0x00, 0x00, 0x00] = .ok (.mk [] (.Compound []))) ∧
    (∀ (f : Nat) (input : List UInt8) (c : Bool) (ts : List NamedTag) (rest : List UInt8),
      compound_tag f input = .ok c (.Compound ts) rest →
      ∀ t ∈ ts, t.content ≠ .End) := by
  constructor
  · rfl
  · intro f input c ts rest h t ht
    cases f with
    | zero => exact absurd h (by rw [compound_tag]; simp)
    | succ f =>
      rw [compound_tag] at h
      obtain ⟨w, hw, hv⟩ := pmap_ok h
      injection hv with hts
      subst hts
      unfold pskip at hw
      obtain ⟨c1, a, r1, c2, hmany, hend, hc⟩ := pbind_ok hw
      obtain ⟨w2, hw2, hwa⟩ := pmap_ok hend
      rw [many] at hmany
      have hmem := manyAux_mem
        (fun inp cc vv rr hh => compound_item_ok_not_end (named_tag f) inp cc vv rr hh)
        _ _ _ _ _ hmany
      subst hwa
      exact hmem t ht

/-- C5 witness: a compound with one substantive element, `Byte 5` named
`"x"` (byte `0x78`), decodes successfully and that element's content is not
`End`. -/
theorem compound_substantive_elements_witness :
    (NamedTag.mk [0x78] (.Byte 5)).content ≠ .End :=
  compound_substantive_elements.2 2 [0x01, 0x00, 0x01, 0x78, 0x05, 0x00] true
    [.mk [0x78] (.Byte 5)] [] rfl (.mk [0x78] (.Byte 5)) (List.Mem.head _)

/-- C6: a `List` with declared element count 0 decodes to the empty sequence
whatever the declared element type id byte is (the dispatch closure is never
invoked), consuming exactly the 5 header bytes (1 id + 4 count); concretely,
even the out-of-range id 11 with count 0 succeeds. -/
theorem empty_list_any_elem_id :
    (∀ (f : Nat) (id : UInt8) (rest : List UInt8),
      list_tag (f + 1) (id :: 0x00 :: 0x00 :: 0x00 :: 0x00 :: rest) =
        .ok true (.List []) rest) ∧
    (decode_uncompressed [0x09, 0x00, 0x00, 0x0B, 0x00, 0x00, 0x00, 0x00] =
      .ok (.mk [] (.List []))) := by
  constructor
  · intro f id rest
    rw [list_tag]
    simp [pand, pbind, pmap, i8, any, be_i32_zeros, usizeCast_zero, count, countAux]
  · rfl

/-- C7: at the named-tag dispatch site a type-id byte outside 0–10 makes
every `choice!` alternative fail on its leading `byte` parser, so the decode
fails with the merged unknown-type error recording the offending byte (the
spec's `UnknownTagType(id)`).  At the list-element site, however, the
`unexpected("Invalid tagId on TAG_List")` failure consumes no input, so
`count` treats it as the end of the elements: a list with element id 11 and
count 1 *succeeds* as an empty list instead of failing as the claim states. -/
theorem unknown_tag_type_dispatch_sites :
    (∀ (f : Nat) (b : UInt8) (rest : List UInt8), 10 < b.toNat →
      named_tag (f + 1) (b :: rest) =
        .err false (.unexpectedToken b [0, 1, 2, 3, 4, 5, 6, 7, 8, 9, 10])) ∧
    (decode_uncompressed [0x09, 0x00, 0x00, 0x0B, 0x00, 0x00, 0x00, 0x01] =
      .ok (.mk [] (.List []))) := by
  constructor
  · intro f b rest hb
    have hne : ∀ k : UInt8, k.toNat ≤ 10 → ¬(b = k) := by
      intro k hk h
      subst h
      omega
    have h0 := hne 0 (by decide)
    have h1 := hne 1 (by decide)
    have h2 := hne 2 (by decide)
    have h3 := hne 3 (by decide)
    have h4 := hne 4 (by decide)
    have h5 := hne 5 (by decide)
    have h6 := hne 6 (by decide)
    have h7 := hne 7 (by decide)
    have h8 := hne 8 (by decide)
    have h9 := hne 9 (by decide)
    have h10 := hne 10 (by decide)
    simp [named_tag, por, taggedWith, pand, pwith, pbind, pmap, end_tag, byte,
      PError.merge, h0, h1, h2, h3, h4, h5, h6, h7, h8, h9, h10]
  · rfl

/-- C7 witness for the named-site conjunct: the root type-id byte 11 fails
with the unknown-tag error recording the byte 11 and the expected ids 0–10. -/
theorem unknown_tag_type_witness :
    named_tag (0 + 1) (0x0B :: [0x05]) =
      .err false (.unexpectedToken 0x0B [0, 1, 2, 3, 4, 5, 6, 7, 8, 9, 10]) :=
  unknown_tag_type_dispatch_sites.1 0 0x0B [0x05] (by decide)

/-- C8: in every successfully decoded `List` all elements share one variant:
the element type id read once at the head of the list fixes, through the
dispatch closure, the variant of every decoded element. -/
theorem list_elements_share_tag_id (f : Nat) (input : List UInt8) (c : Bool)
    (es : List UnnamedTag) (rest : List UInt8)
    (h : list_tag f input = .ok c (.List es) rest) :
    ∀ e1 ∈ es, ∀ e2 ∈ es, e1.tagId = e2.tagId := by
  intro e1 h1 e2 h2
  cases f with
  | zero => exact absurd h (by rw [list_tag]; simp)
  | succ f =>
    rw [list_tag] at h
    obtain ⟨w, hw, hv⟩ := pmap_ok h
    injection hv with hes
    subst hes
    obtain ⟨c1, il, r1, c2, hand, hcount, hc⟩ := pbind_ok hw
    rw [count] at hcount
    have hall := countAux_mem
      (fun inp cc vv rr hh => list_elem_tagId f il.1 inp cc vv rr hh)
      _ _ _ _ _ _ hcount
    rw [hall e1 h1, hall e2 h2]

/-- C8 witness: a concrete two-element Byte list whose elements indeed share
the `Byte` variant. -/
theorem list_elements_share_tag_id_witness :
    (UnnamedTag.Byte 5).tagId = (UnnamedTag.Byte 7).tagId :=
  list_elements_share_tag_id 2 [0x01, 0x00, 0x00, 0x00, 0x02, 0x05, 0x07] true
    [.Byte 5, .Byte 7] [] rfl (.Byte 5) (List.Mem.head _) (.Byte 7)
    (List.Mem.tail _ (List.Mem.head _))

/-- C9: for every byte stream whose prefix `p` is a valid encoding of one
top-level named tag (the spec-side `EncodesNamed` relation, written from the
layout table of spec section 6), `decode_uncompressed` returns exactly that
tag, whatever bytes follow the prefix — they are never read or validated.
The second conjunct exhibits a concrete valid encoding (the spec's
`Int 42 named "x"` scenario); the third shows a fixed prefix decoding to the
same root under arbitrary trailing junk. -/
theorem decode_ignores_trailing_bytes :
    (∀ (t : NamedTag) (p rest : List UInt8), EncodesNamed t p →
      decode_uncompressed (p ++ rest) = .ok t) ∧
    EncodesNamed (.mk [0x78] (.Int 42)) [0x03, 0x00, 0x01, 0x78, 0x00, 0x00, 0x00, 0x2A] ∧
    (∀ junk : List UInt8,
      decode_uncompressed (0x0A :: 0x00 :: 0x00 :: 0x00 :: junk) =
        .ok (.mk [] (.Compound []))) := by
  refine ⟨?_, ?_, ?_⟩
  · intro t p rest henc
    have h := (decode_roundtrip_all p.length).2.1 t p rest ((p ++ rest).length + 1) henc
      le_rfl (by simp only [List.length_append]; omega)
    simp only [decode_uncompressed, h]
  · exact EncodesNamed.tagged [0x78] (.Int 42) _ (by decide) (by decide)
      (EncodesPayload.int 42 (by decide) (by decide))
  · intro junk
    have h1 := compound_tag_empty (junk.length + 1 + 1) junk
    have h2 := named_tag_compound_ok (junk.length + 1 + 1 + 1 + 1) (0x00 :: junk) true
      (.Compound []) junk h1
    simp only [decode_uncompressed, List.length_cons, h2]

/-- C10: a stream whose first byte is 0x00 decodes immediately: the first
`choice!` alternative of `named_tag` is `end_tag`, so the bare End sentinel —
with no name bytes — is accepted as a complete top-level tag with empty name. -/
theorem bare_end_root_accepted (rest : List UInt8) :
    decode_uncompressed (0x00 :: rest) = .ok (.mk [] .End) := by
  simp [decode_uncompressed, named_tag_zero]

end Nbt
